import Mathlib

/-!
Verification of the message-chunking routine `splitMessage` of
`src/index.js` (a Discord bot that relays questions to a generative-AI
API and chunks long answers to fit the 2000-character message limit).

The JavaScript source being modelled:

  function splitMessage(text, maxLen = 2000) {
    if (!text) return [];
    if (text.length <= maxLen) return [text];
    const parts = [];
    const paragraphs = text.split("\n\n");
    let chunk = '';
    for (const p of paragraphs) {
      const piece = chunk is nonempty ? "\n\n" + p : p;
      if ((chunk + piece).length > maxLen) {
        if (chunk) { parts.push(chunk); chunk = p; }
        else {
          let i = 0;
          while (i < p.length) { parts.push(p.slice(i, i + maxLen)); i += maxLen; }
          chunk = '';
        }
      } else { chunk += piece; }
    }
    if (chunk) parts.push(chunk);
    return parts;
  }

Strings are modelled as `List Char`; the JavaScript string split at "\n\n" is
modelled by `splitSep` (leftmost, non-overlapping matches of the
two-character separator); the `while` loop of the hard-slice branch is
modelled with explicit fuel (`hardSliceFuel`), since for `maxLen = 0` the
JavaScript loop does not terminate: exhausted fuel (`none`) models
divergence.  The `for` loop with its `chunk` accumulator is `splitGo`,
written so that the list it returns is the list of parts the JavaScript
loop pushes from the current state onward (including the final flush).
-/

set_option autoImplicit false

namespace Chunker

/-- The paragraph separator `"\n\n"` of `text.split("\n\n")`. -/
def sep : List Char := ['\n', '\n']

/-- Helper for `splitSep`: returns the first part (up to the first
occurrence of `sep`) and the list of the remaining parts. -/
def splitSepAux : List Char → List Char × List (List Char)
  | [] => ([], [])
  | [c] => ([c], [])
  | a :: b :: rest =>
    if a = '\n' ∧ b = '\n' then
      ([], (splitSepAux rest).1 :: (splitSepAux rest).2)
    else
      (a :: (splitSepAux (b :: rest)).1, (splitSepAux (b :: rest)).2)

/-- JavaScript split of s at "\n\n": split at leftmost, non-overlapping
occurrences of the two-newline separator.  Always returns at least one
(possibly empty) part, like the JavaScript original. -/
def splitSep (s : List Char) : List (List Char) :=
  (splitSepAux s).1 :: (splitSepAux s).2

/-- The hard-slice loop `while (i < p.length) { parts.push(p.slice(i, i + maxLen)); i += maxLen }`,
with explicit fuel: `none` models non-termination (which happens in the
JavaScript source when `maxLen = 0`).  `p.slice(i, i + maxLen)` for the
running index is the `take maxLen` of the not-yet-consumed remainder. -/
def hardSliceFuel : Nat → Nat → List Char → Option (List (List Char))
  | _, _, [] => some []
  | 0, _, _ :: _ => none
  | fuel + 1, maxLen, c :: cs =>
    (hardSliceFuel fuel maxLen ((c :: cs).drop maxLen)).map
      fun rest => (c :: cs).take maxLen :: rest

/-- The `for (const p of paragraphs)` loop of `splitMessage`, including the
final `if (chunk) parts.push(chunk)`.  The returned list is the list of
parts pushed from this state on.  The branch order of the source is
`if (chunk) {flush} else {hard-slice}`; here the emptiness test is spelled
`chunk = []` with the two branches swapped accordingly. -/
def splitGo (maxLen : Nat) : List (List Char) → List Char → Option (List (List Char))
  | [], chunk => some (if chunk = [] then [] else [chunk])
  | p :: ps, chunk =>
    let piece := if chunk = [] then p else sep ++ p
    if maxLen < (chunk ++ piece).length then
      if chunk = [] then
        (hardSliceFuel p.length maxLen p).bind fun slices =>
          (splitGo maxLen ps []).map fun rest => slices ++ rest
      else
        (splitGo maxLen ps p).map fun rest => chunk :: rest
    else
      splitGo maxLen ps (chunk ++ piece)

/-- The chunker `splitMessage(text, maxLen)` of `src/index.js`.
`none` models the non-termination of the hard-slice loop (only possible
when `maxLen = 0`, outside the documented range `maxLen ≥ 1`). -/
def splitMessage (text : List Char) (maxLen : Nat) : Option (List (List Char)) :=
  if text = [] then some []
  else if text.length ≤ maxLen then some [text]
  else splitGo maxLen (splitSep text) []

/-- Attach ghost boundary flags to the slices produced by the hard-slice
loop: the boundaries between consecutive slices are hard-slice cuts
(flag `false`); the flag of the last slice is `b`, recording whether a
paragraph boundary of the source text follows it. -/
def attachFlags : List (List Char) → Bool → List (List Char × Bool)
  | [], _ => []
  | [s], b => [(s, b)]
  | s :: ss, b => (s, false) :: attachFlags ss b

/-- Instrumented variant of `splitGo`: identical control flow, but each
emitted chunk carries a ghost flag that is `true` exactly when a paragraph
boundary of the source text separates it from the next chunk (a flushed
buffer is always followed by such a boundary; the final flush and
hard-slice-internal cuts are not). `splitGo` is its projection
(`splitGo_eq_proj`). -/
def splitGoB (maxLen : Nat) : List (List Char) → List Char → Option (List (List Char × Bool))
  | [], chunk => some (if chunk = [] then [] else [(chunk, false)])
  | p :: ps, chunk =>
    let piece := if chunk = [] then p else sep ++ p
    if maxLen < (chunk ++ piece).length then
      if chunk = [] then
        (hardSliceFuel p.length maxLen p).bind fun slices =>
          (splitGoB maxLen ps []).map fun rest => attachFlags slices (!ps.isEmpty) ++ rest
      else
        (splitGoB maxLen ps p).map fun rest => (chunk, true) :: rest
    else
      splitGoB maxLen ps (chunk ++ piece)

/-- Instrumented variant of `splitMessage`, carrying the ghost boundary
flags of `splitGoB`. -/
def splitMessageB (text : List Char) (maxLen : Nat) : Option (List (List Char × Bool)) :=
  if text = [] then some []
  else if text.length ≤ maxLen then some [(text, false)]
  else splitGoB maxLen (splitSep text) []

/-- The reconstruction described by the specification: concatenate the
chunks, reinserting the two-newline separator between two adjacent chunks
exactly when the first of them is flagged as split at a paragraph
boundary, and reinserting nothing at hard-slice cuts.  Nothing is ever
inserted after the final chunk. -/
def reassemble : List (List Char × Bool) → List Char
  | [] => []
  | [(c, _)] => c
  | (c, b) :: rest => c ++ (if b then sep else []) ++ reassemble rest

/-- Join the tail parts of a paragraph list, each preceded by the
separator. -/
def joinTail : List (List Char) → List Char
  | [] => []
  | p :: ps => sep ++ p ++ joinTail ps

/-- Inverse of `splitSep`: rejoin paragraphs with the separator. -/
def joinSep : List (List Char) → List Char
  | [] => []
  | p :: ps => p ++ joinTail ps

/-- `p` occurs contiguously inside `s`. -/
def infixOf (p s : List Char) : Prop := ∃ l r, s = l ++ p ++ r

end Chunker
namespace Chunker

theorem infixOf_newline_mem {s : List Char} (h : infixOf sep s) : '\n' ∈ s := by
  obtain ⟨l, r, rfl⟩ := h
  simp [sep]

theorem splitSepAux_of_not_infix {s : List Char} (h : ¬ infixOf sep s) :
    splitSepAux s = (s, []) := by
  induction s using splitSepAux.induct with
  | case1 => simp [splitSepAux]
  | case2 c => simp [splitSepAux]
  | case3 a b rest h2 ih =>
    exact absurd ⟨[], rest, by simp [sep, h2.1, h2.2]⟩ h
  | case4 a b rest h2 ih =>
    have : ¬ infixOf sep (b :: rest) := by
      intro ⟨l, r, hlr⟩
      exact h ⟨a :: l, r, by simp [hlr]⟩
    simp [splitSepAux, h2, ih this]

theorem splitSep_eq_single {s : List Char} (h : ¬ infixOf sep s) :
    splitSep s = [s] := by
  simp [splitSep, splitSepAux_of_not_infix h]

theorem not_infix_of_no_newline {s : List Char} (h : ∀ c ∈ s, c ≠ '\n') :
    ¬ infixOf sep s :=
  fun hx => h '\n' (infixOf_newline_mem hx) rfl

theorem splitSepAux_append_sep {a b : List Char} (ha : ∀ c ∈ a, c ≠ '\n')
    (hb : ¬ infixOf sep b) : splitSepAux (a ++ sep ++ b) = (a, [b]) := by
  induction a with
  | nil =>
    show splitSepAux ('\n' :: '\n' :: b) = ([], [b])
    simp [splitSepAux, splitSepAux_of_not_infix hb]
  | cons x a' ih =>
    have hx : x ≠ '\n' := ha x (List.mem_cons_self x a')
    have ha' : ∀ c ∈ a', c ≠ '\n' := fun c hc => ha c (List.mem_cons_of_mem x hc)
    have ih' := ih ha'
    cases a' with
    | nil =>
      show splitSepAux (x :: '\n' :: ('\n' :: b)) = ([x], [b])
      simp [splitSepAux, hx, splitSepAux_of_not_infix hb]
    | cons y a'' =>
      show splitSepAux (x :: y :: (a'' ++ sep ++ b)) = (x :: y :: a'', [b])
      have hcond : ¬ (x = '\n' ∧ y = '\n') := fun hc => hx hc.1
      have : splitSepAux ((y :: a'') ++ sep ++ b) = (y :: a'', [b]) := ih'
      simp only [splitSepAux, if_neg hcond]
      rw [show y :: (a'' ++ sep ++ b) = (y :: a'') ++ sep ++ b by simp, this]

theorem splitSep_append_sep {a b : List Char} (ha : ∀ c ∈ a, c ≠ '\n')
    (hb : ¬ infixOf sep b) : splitSep (a ++ sep ++ b) = [a, b] := by
  unfold splitSep
  rw [splitSepAux_append_sep ha hb]

end Chunker
namespace Chunker

theorem hardSliceFuel_nil (fuel m : Nat) : hardSliceFuel fuel m [] = some [] := by
  cases fuel <;> rfl

theorem hardSliceFuel_isSome {m : Nat} (hm : 1 ≤ m) :
    ∀ fuel (p : List Char), p.length ≤ fuel → (hardSliceFuel fuel m p).isSome := by
  intro fuel
  induction fuel with
  | zero =>
    intro p hp
    have : p = [] := List.eq_nil_of_length_eq_zero (Nat.le_zero.mp hp)
    subst this
    simp [hardSliceFuel_nil]
  | succ n ih =>
    intro p hp
    cases p with
    | nil => simp [hardSliceFuel_nil]
    | cons c cs =>
      have hlt : ((c :: cs).drop m).length ≤ n := by
        simp only [List.length_drop]
        have : (c :: cs).length ≤ n + 1 := hp
        have hpos : 0 < (c :: cs).length := by simp
        omega
      have := ih ((c :: cs).drop m) hlt
      simp only [hardSliceFuel]
      cases hres : hardSliceFuel n m ((c :: cs).drop m) with
      | none => rw [hres] at this; simp at this
      | some rest => simp

theorem hardSliceFuel_join :
    ∀ {fuel m : Nat} {p : List Char} {ss : List (List Char)},
      hardSliceFuel fuel m p = some ss → ss.flatten = p := by
  intro fuel
  induction fuel with
  | zero =>
    intro m p ss h
    cases p with
    | nil => simp [hardSliceFuel_nil] at h; subst h; simp
    | cons c cs => simp [hardSliceFuel] at h
  | succ n ih =>
    intro m p ss h
    cases p with
    | nil => simp [hardSliceFuel_nil] at h; subst h; simp
    | cons c cs =>
      simp only [hardSliceFuel, Option.map_eq_some'] at h
      obtain ⟨rest, hrest, hss⟩ := h
      subst hss
      simp [List.flatten, ih hrest]

theorem hardSliceFuel_zero {p : List Char} (hp : p ≠ []) :
    ∀ fuel, hardSliceFuel fuel 0 p = none := by
  intro fuel
  induction fuel with
  | zero => cases p with | nil => exact absurd rfl hp | cons c cs => rfl
  | succ n ih =>
    cases p with
    | nil => exact absurd rfl hp
    | cons c cs =>
      simp only [hardSliceFuel, List.drop_zero]
      rw [ih]
      rfl

theorem hardSliceFuel_ne_nil {fuel m : Nat} {p : List Char} {ss : List (List Char)}
    (hp : p ≠ []) (h : hardSliceFuel fuel m p = some ss) : ss ≠ [] := by
  cases fuel with
  | zero => cases p with | nil => exact absurd rfl hp | cons c cs => simp [hardSliceFuel] at h
  | succ n =>
    cases p with
    | nil => exact absurd rfl hp
    | cons c cs =>
      simp only [hardSliceFuel, Option.map_eq_some'] at h
      obtain ⟨rest, _, hss⟩ := h
      subst hss
      simp

theorem hardSliceFuel_mem_ne_nil :
    ∀ {fuel m : Nat} {p : List Char} {ss : List (List Char)},
      hardSliceFuel fuel m p = some ss → ∀ c ∈ ss, c ≠ [] := by
  intro fuel
  induction fuel with
  | zero =>
    intro m p ss h
    cases p with
    | nil => simp [hardSliceFuel_nil] at h; subst h; simp
    | cons c cs => simp [hardSliceFuel] at h
  | succ n ih =>
    intro m p ss h
    cases p with
    | nil => simp [hardSliceFuel_nil] at h; subst h; simp
    | cons c cs =>
      simp only [hardSliceFuel, Option.map_eq_some'] at h
      obtain ⟨rest, hrest, hss⟩ := h
      subst hss
      intro x hx
      rcases List.mem_cons.mp hx with hx | hx
      · subst hx
        intro htk
        have hm0 : m = 0 := by
          by_contra hm
          have : (c :: cs).take m ≠ [] := by
            cases m with
            | zero => exact absurd rfl hm
            | succ k => simp [List.take]
          exact this htk
        subst hm0
        rw [List.drop_zero, hardSliceFuel_zero (by simp)] at hrest
        exact Option.noConfusion hrest
      · exact ih hrest x hx

theorem hardSliceFuel_mem_le :
    ∀ {fuel m : Nat} {p : List Char} {ss : List (List Char)},
      hardSliceFuel fuel m p = some ss → ∀ c ∈ ss, c.length ≤ m := by
  intro fuel
  induction fuel with
  | zero =>
    intro m p ss h
    cases p with
    | nil => simp [hardSliceFuel_nil] at h; subst h; simp
    | cons c cs => simp [hardSliceFuel] at h
  | succ n ih =>
    intro m p ss h
    cases p with
    | nil => simp [hardSliceFuel_nil] at h; subst h; simp
    | cons c cs =>
      simp only [hardSliceFuel, Option.map_eq_some'] at h
      obtain ⟨rest, hrest, hss⟩ := h
      subst hss
      intro x hx
      rcases List.mem_cons.mp hx with hx | hx
      · subst hx
        simp
      · exact ih hrest x hx

end Chunker
namespace Chunker

theorem hardSliceFuel_dropLast :
    ∀ {fuel m : Nat} {p : List Char} {ss : List (List Char)},
      hardSliceFuel fuel m p = some ss → ∀ c ∈ ss.dropLast, c.length = m := by
  intro fuel
  induction fuel with
  | zero =>
    intro m p ss h
    cases p with
    | nil => simp [hardSliceFuel_nil] at h; subst h; simp
    | cons c cs => simp [hardSliceFuel] at h
  | succ n ih =>
    intro m p ss h
    cases p with
    | nil => simp [hardSliceFuel_nil] at h; subst h; simp
    | cons c cs =>
      simp only [hardSliceFuel, Option.map_eq_some'] at h
      obtain ⟨rest, hrest, hss⟩ := h
      subst hss
      cases hr : rest with
      | nil => simp
      | cons r rs =>
        subst hr
        intro x hx
        rw [List.dropLast_cons_of_ne_nil (by simp)] at hx
        rcases List.mem_cons.mp hx with hx | hx
        · subst hx
          have hdrop : (c :: cs).drop m ≠ [] := by
            intro hd
            rw [hd, hardSliceFuel_nil] at hrest
            exact List.noConfusion (Option.some.inj hrest)
          have hlt : m < (c :: cs).length := by
            by_contra hle
            exact hdrop (List.drop_eq_nil_of_le (Nat.le_of_not_lt hle))
          exact List.length_take_of_le (Nat.le_of_lt hlt)
        · exact ih hrest x hx

theorem hardSliceFuel_count :
    ∀ {fuel m : Nat} {p : List Char} {ss : List (List Char)}, 1 ≤ m →
      hardSliceFuel fuel m p = some ss →
      p.length ≤ ss.length * m ∧ ss.length * m < p.length + m := by
  intro fuel
  induction fuel with
  | zero =>
    intro m p ss hm h
    cases p with
    | nil =>
      simp [hardSliceFuel_nil] at h; subst h
      simpa using hm
    | cons c cs => simp [hardSliceFuel] at h
  | succ n ih =>
    intro m p ss hm h
    cases p with
    | nil =>
      simp [hardSliceFuel_nil] at h; subst h
      simpa using hm
    | cons c cs =>
      simp only [hardSliceFuel, Option.map_eq_some'] at h
      obtain ⟨rest, hrest, hss⟩ := h
      subst hss
      obtain ⟨ih1, ih2⟩ := ih hm hrest
      simp only [List.length_drop, List.length_cons] at ih1 ih2
      simp only [List.length_cons, add_one_mul]
      rcases le_or_lt m (cs.length + 1) with hml | hml
      · omega
      · have hdrop : (c :: cs).drop m = [] :=
          List.drop_eq_nil_of_le (by simpa using Nat.le_of_lt hml)
        rw [hdrop, hardSliceFuel_nil] at hrest
        have : rest = [] := (Option.some.inj hrest).symm
        subst this
        simp only [List.length_nil, Nat.zero_mul]
        omega

end Chunker
namespace Chunker

theorem splitGo_nil (m : Nat) (chunk : List Char) :
    splitGo m [] chunk = some (if chunk = [] then [] else [chunk]) := rfl

theorem splitGo_cons_nil (m : Nat) (p : List Char) (ps : List (List Char)) :
    splitGo m (p :: ps) [] =
      if m < p.length then
        (hardSliceFuel p.length m p).bind fun slices =>
          (splitGo m ps []).map fun rest => slices ++ rest
      else splitGo m ps p := by
  simp [splitGo]

theorem splitGo_cons_ne (m : Nat) (p : List Char) (ps : List (List Char))
    {chunk : List Char} (hc : chunk ≠ []) :
    splitGo m (p :: ps) chunk =
      if m < (chunk ++ (sep ++ p)).length then
        (splitGo m ps p).map fun rest => chunk :: rest
      else splitGo m ps (chunk ++ (sep ++ p)) := by
  simp [splitGo, hc]

theorem splitGo_ne_nil {m : Nat} :
    ∀ {ps : List (List Char)} {chunk : List Char} {out : List (List Char)},
      splitGo m ps chunk = some out →
      (chunk ≠ [] ∨ ∃ p ∈ ps, p ≠ []) → out ≠ [] := by
  intro ps
  induction ps with
  | nil =>
    intro chunk out h hd
    rcases hd with hc | ⟨p, hp, _⟩
    · rw [splitGo_nil, if_neg hc] at h
      rw [← Option.some.inj h]
      simp
    · simp at hp
  | cons p ps ih =>
    intro chunk out h hd
    by_cases hc : chunk = []
    · subst hc
      rw [splitGo_cons_nil] at h
      by_cases hlen : m < p.length
      · rw [if_pos hlen, Option.bind_eq_some] at h
        obtain ⟨slices, hsl, h⟩ := h
        rw [Option.map_eq_some'] at h
        obtain ⟨rest, hrest, hout⟩ := h
        subst hout
        have hp : p ≠ [] := by
          intro hpe
          subst hpe
          simp at hlen
        simp [hardSliceFuel_ne_nil hp hsl]
      · rw [if_neg hlen] at h
        refine ih h ?_
        rcases hd with hce | ⟨q, hq, hqne⟩
        · exact absurd rfl hce
        · rcases List.mem_cons.mp hq with hq | hq
          · subst hq
            exact Or.inl hqne
          · exact Or.inr ⟨q, hq, hqne⟩
    · rw [splitGo_cons_ne m p ps hc] at h
      by_cases hlen : m < (chunk ++ (sep ++ p)).length
      · rw [if_pos hlen, Option.map_eq_some'] at h
        obtain ⟨rest, hrest, hout⟩ := h
        subst hout
        simp
      · rw [if_neg hlen] at h
        refine ih h (Or.inl ?_)
        simp [hc]

theorem splitGo_all_empty {m : Nat} :
    ∀ {ps : List (List Char)}, (∀ p ∈ ps, p = []) → splitGo m ps [] = some [] := by
  intro ps
  induction ps with
  | nil => intro _; rfl
  | cons p ps ih =>
    intro h
    have hp : p = [] := h p (List.mem_cons_self p ps)
    subst hp
    rw [splitGo_cons_nil]
    rw [if_neg (by simp)]
    exact ih fun q hq => h q (List.mem_cons_of_mem [] hq)

theorem splitGo_isSome {m : Nat} (hm : 1 ≤ m) :
    ∀ (ps : List (List Char)) (chunk : List Char), (splitGo m ps chunk).isSome := by
  intro ps
  induction ps with
  | nil => intro chunk; simp [splitGo_nil]
  | cons p ps ih =>
    intro chunk
    by_cases hc : chunk = []
    · subst hc
      rw [splitGo_cons_nil]
      by_cases hlen : m < p.length
      · rw [if_pos hlen]
        have h1 := hardSliceFuel_isSome hm p.length p (Nat.le_refl _)
        have h2 := ih []
        cases hs : hardSliceFuel p.length m p with
        | none => rw [hs] at h1; simp at h1
        | some slices =>
          cases hr : splitGo m ps [] with
          | none => rw [hr] at h2; simp at h2
          | some rest => simp
      · rw [if_neg hlen]
        exact ih p
    · rw [splitGo_cons_ne m p ps hc]
      by_cases hlen : m < (chunk ++ (sep ++ p)).length
      · rw [if_pos hlen]
        have h2 := ih p
        cases hr : splitGo m ps p with
        | none => rw [hr] at h2; simp at h2
        | some rest => simp
      · rw [if_neg hlen]
        exact ih (chunk ++ (sep ++ p))

theorem splitGo_mem_ne_nil {m : Nat} :
    ∀ {ps : List (List Char)} {chunk : List Char} {out : List (List Char)},
      splitGo m ps chunk = some out → ∀ c ∈ out, c ≠ [] := by
  intro ps
  induction ps with
  | nil =>
    intro chunk out h c hcmem
    by_cases hc : chunk = []
    · subst hc
      rw [splitGo_nil, if_pos rfl] at h
      rw [← Option.some.inj h] at hcmem
      simp at hcmem
    · rw [splitGo_nil, if_neg hc] at h
      rw [← Option.some.inj h] at hcmem
      simp at hcmem
      subst hcmem
      exact hc
  | cons p ps ih =>
    intro chunk out h c hcmem
    by_cases hc : chunk = []
    · subst hc
      rw [splitGo_cons_nil] at h
      by_cases hlen : m < p.length
      · rw [if_pos hlen, Option.bind_eq_some] at h
        obtain ⟨slices, hsl, h⟩ := h
        rw [Option.map_eq_some'] at h
        obtain ⟨rest, hrest, hout⟩ := h
        subst hout
        rcases List.mem_append.mp hcmem with hcm | hcm
        · exact hardSliceFuel_mem_ne_nil hsl c hcm
        · exact ih hrest c hcm
      · rw [if_neg hlen] at h
        exact ih h c hcmem
    · rw [splitGo_cons_ne m p ps hc] at h
      by_cases hlen : m < (chunk ++ (sep ++ p)).length
      · rw [if_pos hlen, Option.map_eq_some'] at h
        obtain ⟨rest, hrest, hout⟩ := h
        subst hout
        rcases List.mem_cons.mp hcmem with hcm | hcm
        · subst hcm; exact hc
        · exact ih hrest c hcm
      · rw [if_neg hlen] at h
        exact ih h c hcmem

end Chunker
namespace Chunker

theorem splitSepAux_join (s : List Char) :
    (splitSepAux s).1 ++ joinTail (splitSepAux s).2 = s := by
  induction s using splitSepAux.induct with
  | case1 => simp [splitSepAux, joinTail]
  | case2 c => simp [splitSepAux, joinTail]
  | case3 a b rest h ih =>
    obtain ⟨ha, hb⟩ := h
    subst ha; subst hb
    simp only [splitSepAux, if_pos (And.intro rfl rfl)]
    simpa [joinTail, sep] using congrArg (fun t => '\n' :: '\n' :: t) ih
  | case4 a b rest h ih =>
    simp only [splitSepAux, if_neg h]
    simpa using congrArg (fun t => a :: t) ih

theorem joinSep_splitSep (s : List Char) : joinSep (splitSep s) = s := by
  simpa [splitSep, joinSep] using splitSepAux_join s

theorem infixOf_refl (p : List Char) : infixOf p p := ⟨[], [], by simp⟩

theorem infixOf_append_right {p s : List Char} (t : List Char) (h : infixOf p s) :
    infixOf p (s ++ t) := by
  obtain ⟨l, r, rfl⟩ := h
  exact ⟨l, r ++ t, by simp⟩

theorem infixOf_append_left {p s : List Char} (t : List Char) (h : infixOf p s) :
    infixOf p (t ++ s) := by
  obtain ⟨l, r, rfl⟩ := h
  exact ⟨t ++ l, r, by simp⟩

theorem infixOf_suffix (t p : List Char) : infixOf p (t ++ p) := ⟨t, [], by simp⟩

theorem infixOf_ne_nil {p s : List Char} (hp : p ≠ []) (h : infixOf p s) : s ≠ [] := by
  obtain ⟨l, r, rfl⟩ := h
  simp only [ne_eq, List.append_eq_nil, not_and]
  intro h1
  exact fun h2 => hp h1.2

theorem mem_joinTail_infixOf {p : List Char} :
    ∀ {ps : List (List Char)}, p ∈ ps → infixOf p (joinTail ps) := by
  intro ps
  induction ps with
  | nil => intro h; simp at h
  | cons q qs ih =>
    intro h
    rcases List.mem_cons.mp h with h | h
    · subst h
      exact ⟨sep, joinTail qs, by simp [joinTail]⟩
    · obtain ⟨l, r, hlr⟩ := ih h
      exact ⟨sep ++ q ++ l, r, by simp [joinTail, hlr]⟩

theorem mem_joinSep_infixOf {p : List Char} {ps : List (List Char)} (h : p ∈ ps) :
    infixOf p (joinSep ps) := by
  cases ps with
  | nil => simp at h
  | cons q qs =>
    rcases List.mem_cons.mp h with h | h
    · subst h
      exact ⟨[], joinTail qs, by simp [joinSep]⟩
    · obtain ⟨l, r, hlr⟩ := mem_joinTail_infixOf h
      exact ⟨q ++ l, r, by simp [joinSep, hlr]⟩

theorem mem_splitSep_infixOf {p s : List Char} (h : p ∈ splitSep s) : infixOf p s := by
  have := mem_joinSep_infixOf h
  rwa [joinSep_splitSep] at this

theorem splitGo_paragraph_infixOf {m : Nat} {pp : List Char} (hm : 1 ≤ m) :
    ∀ {ps : List (List Char)} {chunk : List Char} {out : List (List Char)},
      splitGo m ps chunk = some out →
      ((pp ∈ ps ∧ pp.length = m) ∨ (pp ≠ [] ∧ infixOf pp chunk)) →
      ∃ c ∈ out, infixOf pp c := by
  intro ps
  induction ps with
  | nil =>
    intro chunk out h hd
    rcases hd with ⟨hmem, _⟩ | ⟨hne, hinf⟩
    · simp at hmem
    · have hc : chunk ≠ [] := infixOf_ne_nil hne hinf
      rw [splitGo_nil, if_neg hc] at h
      exact ⟨chunk, by rw [← Option.some.inj h]; simp, hinf⟩
  | cons p ps ih =>
    intro chunk out h hd
    have hppne : pp ≠ [] := by
      rcases hd with ⟨_, hl⟩ | ⟨hne, _⟩
      · intro he; rw [he] at hl; simp at hl; omega
      · exact hne
    by_cases hc : chunk = []
    · subst hc
      rw [splitGo_cons_nil] at h
      by_cases hlen : m < p.length
      · rw [if_pos hlen, Option.bind_eq_some] at h
        obtain ⟨slices, hsl, h⟩ := h
        rw [Option.map_eq_some'] at h
        obtain ⟨rest, hrest, hout⟩ := h
        subst hout
        rcases hd with ⟨hmem, hl⟩ | ⟨hne, hinf⟩
        · rcases List.mem_cons.mp hmem with hq | hq
          · subst hq
            omega
          · obtain ⟨c, hcm, hcf⟩ := ih hrest (Or.inl ⟨hq, hl⟩)
            exact ⟨c, List.mem_append_right _ hcm, hcf⟩
        · exact absurd rfl (infixOf_ne_nil hne hinf)
      · rw [if_neg hlen] at h
        rcases hd with ⟨hmem, hl⟩ | ⟨hne, hinf⟩
        · rcases List.mem_cons.mp hmem with hq | hq
          · subst hq
            exact ih h (Or.inr ⟨hppne, infixOf_refl pp⟩)
          · exact ih h (Or.inl ⟨hq, hl⟩)
        · exact absurd rfl (infixOf_ne_nil hne hinf)
    · rw [splitGo_cons_ne m p ps hc] at h
      by_cases hlen : m < (chunk ++ (sep ++ p)).length
      · rw [if_pos hlen, Option.map_eq_some'] at h
        obtain ⟨rest, hrest, hout⟩ := h
        subst hout
        rcases hd with ⟨hmem, hl⟩ | ⟨hne, hinf⟩
        · rcases List.mem_cons.mp hmem with hq | hq
          · subst hq
            obtain ⟨c, hcm, hcf⟩ := ih hrest (Or.inr ⟨hppne, infixOf_refl pp⟩)
            exact ⟨c, List.mem_cons_of_mem _ hcm, hcf⟩
          · obtain ⟨c, hcm, hcf⟩ := ih hrest (Or.inl ⟨hq, hl⟩)
            exact ⟨c, List.mem_cons_of_mem _ hcm, hcf⟩
        · exact ⟨chunk, List.mem_cons_self _ _, hinf⟩
      · rw [if_neg hlen] at h
        rcases hd with ⟨hmem, hl⟩ | ⟨hne, hinf⟩
        · rcases List.mem_cons.mp hmem with hq | hq
          · subst hq
            exact ih h (Or.inr ⟨hppne, ⟨chunk ++ sep, [], by simp⟩⟩)
          · exact ih h (Or.inl ⟨hq, hl⟩)
        · exact ih h (Or.inr ⟨hne, infixOf_append_right _ hinf⟩)

end Chunker
namespace Chunker

theorem splitGoB_nil (m : Nat) (chunk : List Char) :
    splitGoB m [] chunk = some (if chunk = [] then [] else [(chunk, false)]) := rfl

theorem splitGoB_cons_nil (m : Nat) (p : List Char) (ps : List (List Char)) :
    splitGoB m (p :: ps) [] =
      if m < p.length then
        (hardSliceFuel p.length m p).bind fun slices =>
          (splitGoB m ps []).map fun rest => attachFlags slices (!ps.isEmpty) ++ rest
      else splitGoB m ps p := by
  simp [splitGoB]

theorem splitGoB_cons_ne (m : Nat) (p : List Char) (ps : List (List Char))
    {chunk : List Char} (hc : chunk ≠ []) :
    splitGoB m (p :: ps) chunk =
      if m < (chunk ++ (sep ++ p)).length then
        (splitGoB m ps p).map fun rest => (chunk, true) :: rest
      else splitGoB m ps (chunk ++ (sep ++ p)) := by
  simp [splitGoB, hc]

theorem attachFlags_fst : ∀ (ss : List (List Char)) (b : Bool),
    (attachFlags ss b).map Prod.fst = ss := by
  intro ss
  induction ss with
  | nil => intro b; rfl
  | cons s ss ih =>
    intro b
    cases ss with
    | nil => rfl
    | cons t ts => simp [attachFlags, ih b]

theorem splitGo_eq_proj (m : Nat) :
    ∀ (ps : List (List Char)) (chunk : List Char),
      splitGo m ps chunk = (splitGoB m ps chunk).map (List.map Prod.fst) := by
  intro ps
  induction ps with
  | nil =>
    intro chunk
    by_cases hc : chunk = []
    · simp [splitGo_nil, splitGoB_nil, hc]
    · simp [splitGo_nil, splitGoB_nil, hc]
  | cons p ps ih =>
    intro chunk
    by_cases hc : chunk = []
    · subst hc
      rw [splitGo_cons_nil, splitGoB_cons_nil]
      by_cases hlen : m < p.length
      · rw [if_pos hlen, if_pos hlen]
        cases hs : hardSliceFuel p.length m p with
        | none => rfl
        | some slices =>
          rw [ih []]
          cases hr : splitGoB m ps [] with
          | none => rfl
          | some rest =>
            simp [attachFlags_fst]
      · rw [if_neg hlen, if_neg hlen]
        exact ih p
    · rw [splitGo_cons_ne m p ps hc, splitGoB_cons_ne m p ps hc]
      by_cases hlen : m < (chunk ++ (sep ++ p)).length
      · rw [if_pos hlen, if_pos hlen, ih p]
        cases hr : splitGoB m ps p with
        | none => rfl
        | some rest => simp
      · rw [if_neg hlen, if_neg hlen]
        exact ih (chunk ++ (sep ++ p))

theorem splitMessage_eq_proj (text : List Char) (m : Nat) :
    splitMessage text m = (splitMessageB text m).map (List.map Prod.fst) := by
  unfold splitMessage splitMessageB
  by_cases h1 : text = []
  · simp [h1]
  · by_cases h2 : text.length ≤ m
    · simp [h1, h2]
    · simp only [if_neg h1, if_neg h2]
      exact splitGo_eq_proj m (splitSep text) []

theorem reassemble_cons_ne {c : List Char} {b : Bool} {rest : List (List Char × Bool)}
    (h : rest ≠ []) :
    reassemble ((c, b) :: rest) = c ++ (if b then sep else []) ++ reassemble rest := by
  cases rest with
  | nil => exact absurd rfl h
  | cons x xs => rfl

theorem attachFlags_ne_nil {ss : List (List Char)} {b : Bool} (h : ss ≠ []) :
    attachFlags ss b ≠ [] := by
  cases ss with
  | nil => exact absurd rfl h
  | cons s ss => cases ss <;> simp [attachFlags]

theorem reassemble_attachFlags :
    ∀ {ss : List (List Char)} {b : Bool} {rest : List (List Char × Bool)}, ss ≠ [] →
      reassemble (attachFlags ss b ++ rest) =
        ss.flatten ++ (if rest = [] then [] else (if b then sep else []) ++ reassemble rest) := by
  intro ss
  induction ss with
  | nil => intro b rest h; exact absurd rfl h
  | cons s ss ih =>
    intro b rest h
    cases ss with
    | nil =>
      cases hrest : rest with
      | nil => simp [attachFlags, reassemble]
      | cons x xs =>
        rw [show attachFlags [s] b ++ (x :: xs) = (s, b) :: (x :: xs) from rfl]
        rw [reassemble_cons_ne (by simp)]
        simp
    | cons t ts =>
      rw [show attachFlags (s :: t :: ts) b ++ rest = (s, false) :: (attachFlags (t :: ts) b ++ rest) from rfl]
      have hne : attachFlags (t :: ts) b ++ rest ≠ [] := by
        intro hx
        exact attachFlags_ne_nil (by simp) (List.append_eq_nil.mp hx).1
      rw [reassemble_cons_ne hne, @ih b rest (by simp)]
      simp

end Chunker
namespace Chunker

theorem splitGoB_rest_ne_nil {m : Nat} {ps : List (List Char)} {chunk : List Char}
    {rest : List (List Char × Bool)} (h : splitGoB m ps chunk = some rest)
    (hd : chunk ≠ [] ∨ ∃ p ∈ ps, p ≠ []) : rest ≠ [] := by
  have hproj : splitGo m ps chunk = some (rest.map Prod.fst) := by
    rw [splitGo_eq_proj, h]
    rfl
  intro hx
  subst hx
  exact splitGo_ne_nil hproj hd rfl

theorem splitGoB_reassemble {m : Nat} :
    ∀ {ps : List (List Char)} {chunk : List Char} {out : List (List Char × Bool)},
      (∀ p ∈ ps, p ≠ []) → splitGoB m ps chunk = some out →
      reassemble out = chunk ++ (if chunk = [] then joinSep ps else joinTail ps) := by
  intro ps
  induction ps with
  | nil =>
    intro chunk out hps h
    rw [splitGoB_nil] at h
    by_cases hc : chunk = []
    · rw [if_pos hc] at h
      rw [← Option.some.inj h]
      simp [reassemble, hc, joinSep]
    · rw [if_neg hc] at h
      rw [← Option.some.inj h]
      simp [reassemble, hc, joinTail]
  | cons p ps ih =>
    intro chunk out hps h
    have hp : p ≠ [] := hps p (List.mem_cons_self p ps)
    have hps' : ∀ q ∈ ps, q ≠ [] := fun q hq => hps q (List.mem_cons_of_mem p hq)
    by_cases hc : chunk = []
    · subst hc
      rw [splitGoB_cons_nil] at h
      by_cases hlen : m < p.length
      · rw [if_pos hlen, Option.bind_eq_some] at h
        obtain ⟨slices, hsl, h⟩ := h
        rw [Option.map_eq_some'] at h
        obtain ⟨rest, hrest, hout⟩ := h
        subst hout
        have hslne : slices ≠ [] := hardSliceFuel_ne_nil hp hsl
        have hflat : slices.flatten = p := hardSliceFuel_join hsl
        rw [reassemble_attachFlags hslne, hflat]
        have ihrest := ih hps' hrest
        rw [if_pos rfl] at ihrest
        rw [List.nil_append] at ihrest
        cases hpsc : ps with
        | nil =>
          subst hpsc
          have : rest = [] := by
            rw [splitGoB_nil, if_pos rfl] at hrest
            exact (Option.some.inj hrest).symm
          subst this
          simp [joinSep, joinTail]
        | cons q qs =>
          have hrne : rest ≠ [] := by
            refine splitGoB_rest_ne_nil hrest (Or.inr ⟨q, ?_, ?_⟩)
            · rw [hpsc]; exact List.mem_cons_self q qs
            · rw [hpsc] at hps'
              exact hps' q (List.mem_cons_self q qs)
          rw [if_neg hrne]
          rw [hpsc] at ihrest
          rw [ihrest]
          simp [joinSep, joinTail, hpsc]
      · rw [if_neg hlen] at h
        have ihp := ih hps' h
        rw [if_neg hp] at ihp
        rw [ihp]
        simp [joinSep]
    · rw [splitGoB_cons_ne m p ps hc] at h
      by_cases hlen : m < (chunk ++ (sep ++ p)).length
      · rw [if_pos hlen, Option.map_eq_some'] at h
        obtain ⟨rest, hrest, hout⟩ := h
        subst hout
        have hrne : rest ≠ [] := splitGoB_rest_ne_nil hrest (Or.inl hp)
        rw [reassemble_cons_ne hrne]
        have ihrest := ih hps' hrest
        rw [if_neg hp] at ihrest
        rw [ihrest]
        simp [joinTail, hc]
      · rw [if_neg hlen] at h
        have hcc : chunk ++ (sep ++ p) ≠ [] := by simp [hc]
        have ihp := ih hps' h
        rw [if_neg hcc] at ihp
        rw [ihp]
        simp [joinTail, hc]

end Chunker
namespace Chunker

theorem splitGo_hard_case {text : List Char} {m : Nat} {out : List (List Char)}
    (h2 : ¬ text.length ≤ m) (hsep : ¬ infixOf sep text)
    (h : splitGo m (splitSep text) [] = some out) :
    hardSliceFuel text.length m text = some out := by
  rw [splitSep_eq_single hsep, splitGo_cons_nil,
    if_pos (by omega), splitGo_nil, if_pos rfl] at h
  rw [Option.bind_eq_some] at h
  obtain ⟨slices, hsl, hmap⟩ := h
  simp only [Option.map_some', Option.some.injEq, List.append_nil] at hmap
  rw [hmap] at hsl
  exact hsl

end Chunker

namespace Chunker

/-- C1 (claim refuted by the code, `code_bug`): the source's own comment says
`split message into <=2000 char chunks`, but a paragraph longer than `maxLen`
that follows a non-empty buffer is assigned to `chunk` by the flush branch
without ever being hard-sliced: for `text = "B\n\nAAAA"` and `maxLen = 3` the
code returns the chunk `"AAAA"` of length `4 > 3`. -/
theorem c1_bound_violated_eval :
    splitMessage ("B\n\nAAAA".toList) 3 = some ["B".toList, "AAAA".toList] ∧
      3 < ("AAAA".toList).length := by
  constructor
  · rfl
  · decide

/-- C2 (counterexample): for `text = "aaaa\n\n"` and `maxLen = 4` the output is
the single chunk `"aaaa"`; the trailing separator is dropped, so the claimed
reconstruction (which can only reinsert separators between two adjacent
chunks) cannot reproduce the input. -/
theorem c2_reconstruction_counterexample :
    splitMessage ("aaaa\n\n".toList) 4 = some ["aaaa".toList] ∧
      splitMessageB ("aaaa\n\n".toList) 4 = some [("aaaa".toList, true)] ∧
      reassemble [("aaaa".toList, true)] ≠ "aaaa\n\n".toList := by
  refine ⟨rfl, rfl, ?_⟩
  decide

/-- C2 (amended): if every paragraph of `text` is non-empty (no leading,
trailing, or doubled separator), then concatenating the chunks of
`splitMessage(text, maxLen)` while reinserting the two-newline separator
exactly between adjacent chunks split at a paragraph boundary (flag `true`),
and nothing at hard-slice cuts, reproduces `text`. -/
theorem c2_reassemble_no_empty_paragraph (text : List Char) (m : Nat)
    (_hm : 1 ≤ m) (hps : ∀ p ∈ splitSep text, p ≠ [])
    (out : List (List Char × Bool)) (h : splitMessageB text m = some out) :
    reassemble out = text ∧ splitMessage text m = some (out.map Prod.fst) := by
  have hproj : splitMessage text m = some (out.map Prod.fst) := by
    rw [splitMessage_eq_proj, h]
    rfl
  refine ⟨?_, hproj⟩
  unfold splitMessageB at h
  by_cases h1 : text = []
  · exfalso
    refine hps [] ?_ rfl
    rw [h1]
    show [] ∈ splitSep []
    rw [show splitSep [] = [[]] from rfl]
    simp
  · by_cases h2 : text.length ≤ m
    · rw [if_neg h1, if_pos h2] at h
      rw [← Option.some.inj h]
      simp [reassemble]
    · rw [if_neg h1, if_neg h2] at h
      have := splitGoB_reassemble hps h
      rw [if_pos rfl, List.nil_append] at this
      rw [this, joinSep_splitSep]

/-- C3 (counterexample): the non-empty input `"\n\n"` with `maxLen = 1`
(length `2 > 1`, both paragraphs empty) produces the empty sequence, refuting
the claimed equivalence between non-empty input and non-empty output. -/
theorem c3_nonempty_iff_counterexample :
    splitMessage ("\n\n".toList) 1 = some [] ∧ "\n\n".toList ≠ ([] : List Char) := by
  refine ⟨rfl, ?_⟩
  decide

/-- C3 (amended): the output of `splitMessage(text, maxLen)` is empty exactly
when `text` is empty, or `text` is longer than `maxLen` and consists solely of
paragraph separators (every paragraph is empty).  In particular the empty
input produces the empty sequence, and a non-empty output implies a non-empty
input. -/
theorem c3_empty_output_characterization (text : List Char) (m : Nat)
    (out : List (List Char)) (h : splitMessage text m = some out) :
    out = [] ↔ text = [] ∨ (m < text.length ∧ ∀ p ∈ splitSep text, p = []) := by
  unfold splitMessage at h
  by_cases h1 : text = []
  · rw [if_pos h1] at h
    rw [← Option.some.inj h]
    simp [h1]
  · by_cases h2 : text.length ≤ m
    · rw [if_neg h1, if_pos h2] at h
      rw [← Option.some.inj h]
      simp [h1]
      omega
    · rw [if_neg h1, if_neg h2] at h
      constructor
      · intro hout
        right
        refine ⟨by omega, ?_⟩
        by_contra hall
        push_neg at hall
        obtain ⟨p, hpmem, hpne⟩ := hall
        exact splitGo_ne_nil h (Or.inr ⟨p, hpmem, hpne⟩) hout
      · intro hrhs
        rcases hrhs with hrhs | ⟨_, hall⟩
        · exact absurd hrhs h1
        · rw [splitGo_all_empty hall] at h
          exact (Option.some.inj h).symm

/-- C4: for every `maxLen ≥ 1` the chunker terminates with a result (the
hard-slice loop advances by `maxLen ≥ 1` per step, so the fuel `p.length`
always suffices); `none`, which models divergence, is impossible. -/
theorem c4_terminates (text : List Char) (m : Nat) (hm : 1 ≤ m) :
    (splitMessage text m).isSome := by
  unfold splitMessage
  by_cases h1 : text = []
  · simp [h1]
  · by_cases h2 : text.length ≤ m
    · simp [h1, h2]
    · rw [if_neg h1, if_neg h2]
      exact splitGo_isSome hm (splitSep text) []

/-- C5: a non-empty text that fits in `maxLen` is returned as the single
chunk `[text]`. -/
theorem c5_single_chunk (text : List Char) (m : Nat) (_hm : 1 ≤ m)
    (hne : text ≠ []) (hlen : text.length ≤ m) :
    splitMessage text m = some [text] := by
  unfold splitMessage
  rw [if_neg hne, if_pos hlen]

/-- C6: a single over-long separator-free paragraph is hard-sliced into
consecutive pieces whose concatenation is the input, every piece except
possibly the last having length exactly `maxLen`, all pieces non-empty and
within the bound; when the length is exactly `3 * maxLen` there are exactly 3
pieces, each of length exactly `maxLen`. -/
theorem c6_hard_slice_shape (text : List Char) (m : Nat) (hm : 1 ≤ m)
    (hsep : ¬ infixOf sep text) (hlen : m < text.length)
    (out : List (List Char)) (h : splitMessage text m = some out) :
    out.flatten = text ∧
      (∀ c ∈ out.dropLast, c.length = m) ∧
      (∀ c ∈ out, 1 ≤ c.length ∧ c.length ≤ m) ∧
      (text.length = 3 * m → out.length = 3 ∧ ∀ c ∈ out, c.length = m) := by
  have hs : hardSliceFuel text.length m text = some out := by
    unfold splitMessage at h
    rw [if_neg (by intro hx; rw [hx] at hlen; simp at hlen), if_neg (by omega)] at h
    exact splitGo_hard_case (by omega) hsep h
  refine ⟨hardSliceFuel_join hs, hardSliceFuel_dropLast hs, ?_, ?_⟩
  · intro c hc
    refine ⟨?_, hardSliceFuel_mem_le hs c hc⟩
    have := hardSliceFuel_mem_ne_nil hs c hc
    cases hcc : c with
    | nil => exact absurd hcc this
    | cons x xs => simp
  · intro h3
    obtain ⟨hle, hlt⟩ := hardSliceFuel_count hm hs
    rw [h3] at hle hlt
    have hk3 : 3 ≤ out.length :=
      Nat.le_of_mul_le_mul_right (show 3 * m ≤ out.length * m by omega)
        (show 0 < m by omega)
    have hk4 : out.length < 4 := by
      have hx : out.length * m < 4 * m := by omega
      exact lt_of_mul_lt_mul_right hx (Nat.zero_le m)
    have hk : out.length = 3 := by omega
    refine ⟨hk, ?_⟩
    obtain ⟨a, b, c, habc⟩ := List.length_eq_three.mp hk
    subst habc
    have hflat := hardSliceFuel_join hs
    have hdl := hardSliceFuel_dropLast hs
    have ha : a.length = m := hdl a (by simp)
    have hb : b.length = m := hdl b (by simp)
    have hsum : a.length + (b.length + c.length) = 3 * m := by
      rw [← h3, ← hflat]
      simp
    have hc : c.length = m := by omega
    intro x hx
    rcases List.mem_cons.mp hx with hx | hx
    · subst hx; exact ha
    rcases List.mem_cons.mp hx with hx | hx
    · subst hx; exact hb
    rcases List.mem_cons.mp hx with hx | hx
    · subst hx; exact hc
    · simp at hx

/-- C7: a paragraph of `text` whose length is exactly `maxLen` is never split:
it appears contiguously inside a single chunk of the output. -/
theorem c7_exact_paragraph_intact (text p : List Char) (m : Nat) (hm : 1 ≤ m)
    (hp : p ∈ splitSep text) (hplen : p.length = m)
    (out : List (List Char)) (h : splitMessage text m = some out) :
    ∃ c ∈ out, infixOf p c := by
  unfold splitMessage at h
  by_cases h1 : text = []
  · subst h1
    rw [show splitSep [] = [[]] from rfl] at hp
    simp at hp
    rw [hp] at hplen
    simp at hplen
    omega
  · by_cases h2 : text.length ≤ m
    · rw [if_neg h1, if_pos h2] at h
      refine ⟨text, ?_, mem_splitSep_infixOf hp⟩
      rw [← Option.some.inj h]
      simp
    · rw [if_neg h1, if_neg h2] at h
      exact splitGo_paragraph_infixOf hm h (Or.inl ⟨hp, hplen⟩)

/-- C8: a text made of exactly two paragraphs of 1900 characters each is
split at the paragraph boundary into exactly those two chunks when
`maxLen = 2000`, since joining them (3802 characters) would exceed the bound. -/
theorem c8_two_paragraphs (text p1 p2 : List Char)
    (hsplit : splitSep text = [p1, p2])
    (hl1 : p1.length = 1900) (hl2 : p2.length = 1900) :
    splitMessage text 2000 = some [p1, p2] := by
  have htext : text = p1 ++ (sep ++ (p2 ++ [])) := by
    have hj := joinSep_splitSep text
    rw [hsplit] at hj
    simpa [joinSep, joinTail] using hj.symm
  have hlen : text.length = 3802 := by
    rw [htext]
    simp [sep, hl1, hl2]
  have hp1 : p1 ≠ [] := by
    intro hx
    rw [hx] at hl1
    simp at hl1
  have hp2 : p2 ≠ [] := by
    intro hx
    rw [hx] at hl2
    simp at hl2
  unfold splitMessage
  rw [if_neg (by intro hx; rw [hx] at hlen; simp at hlen),
    if_neg (by omega), hsplit, splitGo_cons_nil, if_neg (by omega),
    splitGo_cons_ne 2000 p2 [] hp1,
    if_pos (by simp [sep]; omega), splitGo_nil, if_neg hp2]
  rfl

/-- C9: every chunk in the output of `splitMessage` is a non-empty string. -/
theorem c9_chunks_nonempty (text : List Char) (m : Nat)
    (out : List (List Char)) (h : splitMessage text m = some out) :
    ∀ c ∈ out, c ≠ [] := by
  unfold splitMessage at h
  by_cases h1 : text = []
  · rw [if_pos h1] at h
    rw [← Option.some.inj h]
    simp
  · by_cases h2 : text.length ≤ m
    · rw [if_neg h1, if_pos h2] at h
      rw [← Option.some.inj h]
      simpa using h1
    · rw [if_neg h1, if_neg h2] at h
      exact splitGo_mem_ne_nil h
/-- C10: on separator-free input the chunker is a lossless partition: the
plain concatenation of the chunks equals the input text. -/
theorem c10_lossless_concat (text : List Char) (m : Nat) (_hm : 1 ≤ m)
    (hsep : ¬ infixOf sep text) (out : List (List Char))
    (h : splitMessage text m = some out) : out.flatten = text := by
  unfold splitMessage at h
  by_cases h1 : text = []
  · rw [if_pos h1] at h
    rw [← Option.some.inj h]
    simp [h1]
  · by_cases h2 : text.length ≤ m
    · rw [if_neg h1, if_pos h2] at h
      rw [← Option.some.inj h]
      simp
    · rw [if_neg h1, if_neg h2] at h
      exact hardSliceFuel_join (splitGo_hard_case h2 hsep h)

end Chunker
namespace Chunker

/-- Witness for C2: the claim theorem instantiated at `"ab\n\ncd"` with
`maxLen = 2`. -/
theorem c2_reassemble_witness :
    reassemble [("ab".toList, true), ("cd".toList, false)] = "ab\n\ncd".toList ∧
      splitMessage ("ab\n\ncd".toList) 2 =
        some ([("ab".toList, true), ("cd".toList, false)].map Prod.fst) :=
  c2_reassemble_no_empty_paragraph ("ab\n\ncd".toList) 2 (by decide) (by decide)
    [("ab".toList, true), ("cd".toList, false)] (by rfl)

/-- Witness for C3: the claim theorem instantiated at `"\n\n"` with
`maxLen = 1`. -/
theorem c3_empty_output_witness :
    (([] : List (List Char)) = [] ↔ "\n\n".toList = [] ∨
      (1 < ("\n\n".toList).length ∧ ∀ p ∈ splitSep ("\n\n".toList), p = [])) :=
  c3_empty_output_characterization ("\n\n".toList) 1 [] (by rfl)

/-- Witness for C4: the claim theorem instantiated at `"hello"` with
`maxLen = 5`. -/
theorem c4_terminates_witness : (splitMessage ("hello".toList) 5).isSome = true :=
  c4_terminates ("hello".toList) 5 (by decide)

/-- Witness for C5: the claim theorem instantiated at `"hi"` with
`maxLen = 10`. -/
theorem c5_single_chunk_witness : splitMessage ("hi".toList) 10 = some ["hi".toList] :=
  c5_single_chunk ("hi".toList) 10 (by decide) (by decide) (by decide)

/-- Witness for C6: the claim theorem instantiated at `"AAAAAA"` with
`maxLen = 2` (a separator-free paragraph of length `3 * 2`). -/
theorem c6_hard_slice_witness :
    (["AA".toList, "AA".toList, "AA".toList] : List (List Char)).flatten = "AAAAAA".toList ∧
      (∀ c ∈ (["AA".toList, "AA".toList, "AA".toList] : List (List Char)).dropLast, c.length = 2) ∧
      (∀ c ∈ (["AA".toList, "AA".toList, "AA".toList] : List (List Char)), 1 ≤ c.length ∧ c.length ≤ 2) ∧
      (("AAAAAA".toList).length = 3 * 2 →
        (["AA".toList, "AA".toList, "AA".toList] : List (List Char)).length = 3 ∧
          ∀ c ∈ (["AA".toList, "AA".toList, "AA".toList] : List (List Char)), c.length = 2) :=
  c6_hard_slice_shape ("AAAAAA".toList) 2 (by decide)
    (not_infix_of_no_newline (by decide)) (by decide)
    ["AA".toList, "AA".toList, "AA".toList] (by rfl)

/-- Witness for C7: the claim theorem instantiated at `"ab\n\ncd"` with
`maxLen = 2` and the paragraph `"cd"` of length exactly 2. -/
theorem c7_paragraph_intact_witness :
    ∃ c ∈ (["ab".toList, "cd".toList] : List (List Char)), infixOf ("cd".toList) c :=
  c7_exact_paragraph_intact ("ab\n\ncd".toList) ("cd".toList) 2 (by decide)
    (by decide) (by decide) ["ab".toList, "cd".toList] (by rfl)

/-- Witness for C8: the claim theorem instantiated at the text made of the
paragraphs `'a' × 1900` and `'b' × 1900`. -/
theorem c8_two_paragraphs_witness :
    splitMessage (List.replicate 1900 'a' ++ sep ++ List.replicate 1900 'b') 2000 =
      some [List.replicate 1900 'a', List.replicate 1900 'b'] :=
  c8_two_paragraphs (List.replicate 1900 'a' ++ sep ++ List.replicate 1900 'b')
    (List.replicate 1900 'a') (List.replicate 1900 'b')
    (splitSep_append_sep
      (fun c hc => by rw [List.eq_of_mem_replicate hc]; decide)
      (not_infix_of_no_newline (fun c hc => by rw [List.eq_of_mem_replicate hc]; decide)))
    (List.length_replicate 1900 'a') (List.length_replicate 1900 'b')

/-- Witness for C9: the claim theorem instantiated at `"ab"` with
`maxLen = 5`. -/
theorem c9_chunks_nonempty_witness : "ab".toList ≠ ([] : List Char) :=
  c9_chunks_nonempty ("ab".toList) 5 ["ab".toList] (by rfl) ("ab".toList) (by simp)

/-- Witness for C10: the claim theorem instantiated at `"abc"` with
`maxLen = 1`. -/
theorem c10_lossless_concat_witness :
    (["a".toList, "b".toList, "c".toList] : List (List Char)).flatten = "abc".toList :=
  c10_lossless_concat ("abc".toList) 1 (by decide)
    (not_infix_of_no_newline (by decide))
    ["a".toList, "b".toList, "c".toList] (by rfl)

end Chunker
